import Mathlib

/-!
Verification of the secure-channel core of the `streamchat` tool
(`src/rust_03/src/main.rs`): Diffie–Hellman modular exponentiation,
the LCG stream cipher, and the handshake / chat-loop behaviour.

Machine integers are modelled as `Nat` with explicit reductions
(`% 2 ^ 32`, `% 2 ^ 64`, `% 2 ^ 128`) exactly where the Rust code
works in `u32`, `u64` and `u128`.
-/

/-- Hardcoded 64-bit safe prime `P` from the source. -/
def P : Nat := 0xD87FA3E291B4C7F3

/-- Generator `G` from the source. -/
def G : Nat := 2

/-- LCG multiplier `LCG_A` from the source (a `u32` constant). -/
def LCG_A : Nat := 1103515245

/-- LCG increment `LCG_C` from the source (a `u32` constant). -/
def LCG_C : Nat := 12345

/-!
## Modular exponentiation (`mod_pow`)

The Rust loop

```
let mut result: u128 = 1;
let mut b: u128 = base as u128;
let mut e = exp;
let m = modulus as u128;
while e > 0 {
    if (e % 2) == 1 { result = (result * b) % m; }
    b = (b * b) % m;
    e /= 2;
}
result as u64
```

is embedded with a fuel argument for structural termination; fuel `exp`
is always sufficient because the loop halves `e` each round, so it runs
at most `log2 exp + 1 ≤ exp` times (`e < 2 ^ e`).  The `u128`
multiplications are modelled by reducing each product `% 2 ^ 128`.
-/

/-- One-loop embedding of the `while e > 0` loop of `mod_pow`. -/
def modPowLoop (fuel result b e m : Nat) : Nat :=
  if e = 0 then result
  else
    match fuel with
    | 0 => result
    | f + 1 =>
      modPowLoop f (if e % 2 = 1 then result * b % 2 ^ 128 % m else result)
        (b * b % 2 ^ 128 % m) (e / 2) m

/-- `mod_pow(base, exp, modulus)` from the source; the final
`result as u64` cast is the trailing `% 2 ^ 64`. -/
def mod_pow (base exp modulus : Nat) : Nat :=
  modPowLoop exp 1 base exp modulus % 2 ^ 64

/-- Loop invariant of square-and-multiply: with enough fuel, a reduced
accumulator and a base below `2 ^ 64`, the loop computes
`result * b ^ e % m`, and the `u128` products never wrap. -/
theorem modPowLoop_eq : ∀ (fuel result b e m : Nat), e < 2 ^ fuel → 1 < m →
    m < 2 ^ 64 → result < m → b < 2 ^ 64 →
    modPowLoop fuel result b e m = result * b ^ e % m := by
  intro fuel
  induction fuel with
  | zero =>
    intro result b e m he _ _ hr _
    have he0 : e = 0 := by simpa using he
    subst he0
    simp [modPowLoop, Nat.mod_eq_of_lt hr]
  | succ f ih =>
    intro result b e m he hm hm64 hr hb
    by_cases he0 : e = 0
    · subst he0
      simp [modPowLoop, Nat.mod_eq_of_lt hr]
    · have hm0 : 0 < m := by omega
      have hrb : result * b % 2 ^ 128 = result * b := by
        refine Nat.mod_eq_of_lt ?_
        calc result * b < 2 ^ 64 * 2 ^ 64 :=
              Nat.mul_lt_mul_of_lt_of_lt (lt_trans hr hm64) hb
          _ = 2 ^ 128 := by norm_num
      have hbb : b * b % 2 ^ 128 = b * b := by
        refine Nat.mod_eq_of_lt ?_
        calc b * b < 2 ^ 64 * 2 ^ 64 := Nat.mul_lt_mul_of_lt_of_lt hb hb
          _ = 2 ^ 128 := by norm_num
      have hstep : modPowLoop (f + 1) result b e m =
          modPowLoop f (if e % 2 = 1 then result * b % 2 ^ 128 % m else result)
            (b * b % 2 ^ 128 % m) (e / 2) m := by
        rw [modPowLoop]
        simp [he0]
      rw [hstep, hrb, hbb]
      have hr2 : (if e % 2 = 1 then result * b % m else result) < m := by
        by_cases h1 : e % 2 = 1 <;> simp [h1, Nat.mod_lt _ hm0, hr]
      have hb2 : b * b % m < 2 ^ 64 := lt_trans (Nat.mod_lt _ hm0) hm64
      have hef : e / 2 < 2 ^ f := by
        have := he
        rw [pow_succ] at this
        omega
      rw [ih _ _ _ _ hef hm hm64 hr2 hb2]
      rw [Nat.mul_mod, ← Nat.pow_mod, ← Nat.mul_mod]
      by_cases h1 : e % 2 = 1
      · have hbe : b ^ e = (b * b) ^ (e / 2) * b := by
          conv_lhs => rw [show e = 2 * (e / 2) + 1 by omega]
          rw [pow_succ, pow_mul, pow_two]
        rw [if_pos h1, Nat.mod_mul_mod, hbe]
        congr 1
        ring
      · have hbe : b ^ e = (b * b) ^ (e / 2) := by
          conv_lhs => rw [show e = 2 * (e / 2) by omega]
          rw [pow_mul, pow_two]
        rw [if_neg h1, hbe]

/-- `mod_pow` computes `base ^ exp % modulus` for any `u64` base and any
modulus strictly between `1` and `2 ^ 64`. -/
theorem mod_pow_eq (a b m : Nat) (ha : a < 2 ^ 64) (hm1 : 1 < m)
    (hm : m < 2 ^ 64) : mod_pow a b m = a ^ b % m := by
  unfold mod_pow
  rw [modPowLoop_eq b 1 a b m (Nat.lt_two_pow b) hm1 hm (by omega) ha, one_mul]
  exact Nat.mod_eq_of_lt (lt_trans (Nat.mod_lt _ (by omega)) hm)

/-!
## The LCG stream cipher (`LcgCipher`)

`struct LcgCipher { state: u32, count: usize }`, with

```
fn new(seed: u64) -> Self        // state = seed as u32, count = 0
fn next_byte(&mut self) -> u8    // state = state.wrapping_mul(LCG_A).wrapping_add(LCG_C);
                                 // count += 1; (state >> 24) as u8
fn process(&mut self, data: &[u8]) -> Vec<u8>  // per byte: b ^ next_byte()
```

The keystream-preview printing in `new` uses a temporary copy of the
state and does not affect the stored `state`, so it is not modelled.
-/

/-- Cipher state: the `u32` LCG register and the keystream position. -/
structure LcgCipher where
  state : Nat
  count : Nat
deriving DecidableEq, Repr

/-- `LcgCipher::new(seed)`: `state = seed as u32` (low 32 bits), count 0. -/
def LcgCipher.new (seed : Nat) : LcgCipher :=
  { state := seed % 2 ^ 32, count := 0 }

/-- `LcgCipher::next_byte`: wrapping `u32` LCG step, one-count advance,
and the `(state >> 24) as u8` output, returned with the new state. -/
def LcgCipher.next_byte (c : LcgCipher) : Nat × LcgCipher :=
  ((c.state * LCG_A % 2 ^ 32 + LCG_C) % 2 ^ 32 / 2 ^ 24 % 2 ^ 8,
   { state := (c.state * LCG_A % 2 ^ 32 + LCG_C) % 2 ^ 32, count := c.count + 1 })

/-- The state transition of one `next_byte` call. -/
def LcgCipher.step (c : LcgCipher) : LcgCipher := c.next_byte.2

/-- `LcgCipher::process(data)`: XOR each byte with one keystream byte. -/
def LcgCipher.process (c : LcgCipher) (data : List Nat) : List Nat × LcgCipher :=
  match data with
  | [] => ([], c)
  | b :: rest =>
    ((b ^^^ c.next_byte.1) :: (c.next_byte.2.process rest).1,
     (c.next_byte.2.process rest).2)

/-- The first `n` keystream bytes a cipher would emit. -/
def keystreamList (c : LcgCipher) : Nat → List Nat
  | 0 => []
  | n + 1 => c.next_byte.1 :: keystreamList c.next_byte.2 n

/-- The output byte of `next_byte` is determined by the initial state
alone: it is the top byte of the updated register. -/
theorem next_byte_fst (c : LcgCipher) :
    c.next_byte.1 = (c.state * LCG_A + LCG_C) % 2 ^ 32 / 2 ^ 24 := by
  have h := Nat.mod_lt (c.state * LCG_A + LCG_C) (show 0 < 2 ^ 32 by norm_num)
  simp only [LcgCipher.next_byte, Nat.mod_add_mod]
  omega

/-- The updated register after `next_byte` is the wrapped LCG step. -/
theorem next_byte_state (c : LcgCipher) :
    c.next_byte.2.state = (c.state * LCG_A + LCG_C) % 2 ^ 32 := by
  simp [LcgCipher.next_byte, Nat.mod_add_mod]

/-- `next_byte` increments the keystream counter by exactly one. -/
theorem next_byte_count (c : LcgCipher) :
    c.next_byte.2.count = c.count + 1 := rfl

/-- Two ciphers with equal registers emit the same next byte and step to
equal registers. -/
theorem next_byte_congr (c₁ c₂ : LcgCipher) (h : c₁.state = c₂.state) :
    c₁.next_byte.1 = c₂.next_byte.1 ∧
      c₁.next_byte.2.state = c₂.next_byte.2.state := by
  simp [LcgCipher.next_byte, h]

/-- `process` preserves the length of the data. -/
theorem process_length (c : LcgCipher) (data : List Nat) :
    (c.process data).1.length = data.length := by
  induction data generalizing c with
  | nil => rfl
  | cons b rest ih => simp [LcgCipher.process, ih]

/-- The output of `process` is the input XORed pointwise against the
keystream bytes drawn from the cipher's current position. -/
theorem process_fst (c : LcgCipher) (data : List Nat) :
    (c.process data).1 =
      List.zipWith (fun x k => x ^^^ k) data (keystreamList c data.length) := by
  induction data generalizing c with
  | nil => rfl
  | cons b rest ih => simp [LcgCipher.process, keystreamList, ih]

/-- The cipher left behind by `process` is the `data.length`-fold
`next_byte` state advance of the starting cipher. -/
theorem process_snd (c : LcgCipher) (data : List Nat) :
    (c.process data).2 = LcgCipher.step^[data.length] c := by
  induction data generalizing c with
  | nil => rfl
  | cons b rest ih =>
    simp [LcgCipher.process, ih, Function.iterate_succ_apply, LcgCipher.step]

/-- Iterating the step transition adds the step count to the counter. -/
theorem step_iterate_count (n : Nat) (c : LcgCipher) :
    (LcgCipher.step^[n] c).count = c.count + n := by
  induction n generalizing c with
  | zero => rfl
  | succ n ih =>
    rw [Function.iterate_succ_apply, ih]
    simp [LcgCipher.step, LcgCipher.next_byte]
    omega

/-- `process` advances the counter by exactly the data length. -/
theorem process_count (c : LcgCipher) (data : List Nat) :
    (c.process data).2.count = c.count + data.length := by
  rw [process_snd, step_iterate_count]

/-- Keystream bytes split at any point: the bytes after position `n` are
the keystream of the `n`-step-advanced cipher, not a restart at 0. -/
theorem keystreamList_add (n m : Nat) (c : LcgCipher) :
    keystreamList c (n + m) =
      keystreamList c n ++ keystreamList (LcgCipher.step^[n] c) m := by
  induction n generalizing c with
  | zero => simp [keystreamList]
  | succ n ih =>
    have h : n + 1 + m = (n + m) + 1 := by omega
    rw [h, keystreamList, keystreamList, ih,
      Function.iterate_succ_apply]
    rfl

/-- Round-trip core: processing with one cipher and re-processing the
output with any cipher holding the same register recovers the input. -/
theorem process_process (c₁ c₂ : LcgCipher) (h : c₁.state = c₂.state)
    (data : List Nat) : (c₂.process (c₁.process data).1).1 = data := by
  induction data generalizing c₁ c₂ with
  | nil => rfl
  | cons b rest ih =>
    obtain ⟨hk, hs⟩ := next_byte_congr c₁ c₂ h
    simp only [LcgCipher.process, hk]
    rw [Nat.xor_assoc, Nat.xor_self, Nat.xor_zero]
    exact congrArg (b :: ·) (ih _ _ hs)

/-!
## Handshake wire format (`handle_connection`)

The key-exchange part of `handle_connection`:

```
let public_key = mod_pow(G, private_key, P);
stream.write_all(&public_key.to_be_bytes()).unwrap();
let mut buffer = [0u8; 8];
stream.read_exact(&mut buffer).unwrap();
let their_public_key = u64::from_be_bytes(buffer);
let shared_secret = mod_pow(their_public_key, private_key, P);
let mut cipher = LcgCipher::new(shared_secret);        // outbound
...
let mut decryptor = LcgCipher::new(shared_secret_copy); // inbound, same seed
```

The successful data flow is embedded as a pure function of the private
key and the 8 received bytes; the `.unwrap()` panic behaviour on I/O
failure is embedded separately below as `key_exchange`.
-/

/-- `u64::to_be_bytes`: the eight big-endian bytes of a 64-bit value. -/
def to_be_bytes (x : Nat) : List Nat :=
  [x / 2 ^ 56 % 2 ^ 8, x / 2 ^ 48 % 2 ^ 8, x / 2 ^ 40 % 2 ^ 8,
   x / 2 ^ 32 % 2 ^ 8, x / 2 ^ 24 % 2 ^ 8, x / 2 ^ 16 % 2  ^ 8,
   x / 2 ^ 8 % 2 ^ 8, x % 2 ^ 8]

/-- `u64::from_be_bytes`: big-endian interpretation of a byte list. -/
def from_be_bytes (l : List Nat) : Nat :=
  l.foldl (fun acc b => acc * 2 ^ 8 + b) 0

/-- Result of the successful handshake path of `handle_connection`. -/
structure HandshakeResult where
  sent : List Nat
  shared_secret : Nat
  outbound : LcgCipher
  inbound : LcgCipher
deriving DecidableEq, Repr

/-- Successful-path handshake of `handle_connection` as a function of
the drawn private key and the 8 bytes read from the peer. -/
def handshake (private_key : Nat) (received : List Nat) : HandshakeResult :=
  { sent := to_be_bytes (mod_pow G private_key P)
    shared_secret := mod_pow (from_be_bytes received) private_key P
    outbound := LcgCipher.new (mod_pow (from_be_bytes received) private_key P)
    inbound := LcgCipher.new (mod_pow (from_be_bytes received) private_key P) }

/-- Big-endian decode inverts big-endian encode on 64-bit values. -/
theorem from_be_to_be (x : Nat) (hx : x < 2 ^ 64) :
    from_be_bytes (to_be_bytes x) = x := by
  simp only [to_be_bytes, from_be_bytes, List.foldl]
  omega

/-- `mod_pow` always returns a value below `2 ^ 64` (the `as u64` cast). -/
theorem mod_pow_lt (a b m : Nat) : mod_pow a b m < 2 ^ 64 :=
  Nat.mod_lt _ (by norm_num)

/-!
## Key-exchange failure behaviour

`handle_connection` performs `stream.write_all(...).unwrap()` and
`stream.read_exact(...).unwrap()`.  `write_all` / `read_exact` turn
short writes/reads into `Err`, and `.unwrap()` turns any `Err` into a
panic (abnormal termination of the handler), not into a returned error
value.  The outcome type below has no error-result constructor because
the code has none.
-/

/-- What the key exchange can do: produce a shared secret, or panic. -/
inductive KexOutcome where
  | ok (shared_secret : Nat)
  | panicked
deriving DecidableEq, Repr

/-- The key-exchange I/O of `handle_connection`, parameterised by the
results of the `write_all` and `read_exact` calls; `.unwrap()` on an
`Err` is a panic. -/
def key_exchange (private_key : Nat) (write_result : Except Unit Unit)
    (read_result : Except Unit (List Nat)) : KexOutcome :=
  match write_result with
  | Except.error _ => KexOutcome.panicked
  | Except.ok _ =>
    match read_result with
    | Except.error _ => KexOutcome.panicked
    | Except.ok received =>
      KexOutcome.ok (mod_pow (from_be_bytes received) private_key P)

/-!
## The send loop

One iteration of the main loop of `handle_connection`:

```
io::stdin().read_line(&mut input).unwrap();
let trimmed = input.trim();
if trimmed.is_empty() { continue; }
let bytes = trimmed.as_bytes();
let encrypted = cipher.process(bytes, "ENCRYPT");
stream.write_all(&encrypted) ...
```

Note the line is whitespace-trimmed before the emptiness check and
before encryption.  Lines are modelled as ASCII byte lists; on ASCII,
Rust `char::is_whitespace` holds exactly for 0x09–0x0D and 0x20.
-/

/-- ASCII fragment of Rust `char::is_whitespace`. -/
def is_rust_whitespace (b : Nat) : Bool :=
  b == 9 || b == 10 || b == 11 || b == 12 || b == 13 || b == 32

/-- `str::trim` on an ASCII byte list: drop leading and trailing
whitespace. -/
def trim (line : List Nat) : List Nat :=
  ((line.dropWhile is_rust_whitespace).reverse.dropWhile
    is_rust_whitespace).reverse

/-- One iteration of the send loop: `none` when the iteration sends
nothing (`continue`), otherwise the ciphertext written to the stream;
paired with the outbound cipher afterwards. -/
def send_loop_body (cipher : LcgCipher) (line : List Nat) :
    Option (List Nat) × LcgCipher :=
  if (trim line).isEmpty then (none, cipher)
  else (some (cipher.process (trim line)).1, (cipher.process (trim line)).2)

/-!
## `mod_pow` with panic tracking

`mod_pow_checked` is `mod_pow` with every `%` on the `u128` modulus
made explicit as a checked remainder: Rust panics on `x % 0`, so the
checked loop returns `none` exactly when the original would panic.
-/

/-- Rust `%`: `none` models the division-by-zero panic. -/
def checked_rem (x m : Nat) : Option Nat :=
  if m = 0 then none else some (x % m)

/-- The `mod_pow` loop with checked remainders. -/
def modPowLoopChecked (fuel result b e m : Nat) : Option Nat :=
  if e = 0 then some result
  else
    match fuel with
    | 0 => some result
    | f + 1 => do
      let result2 ← if e % 2 = 1 then checked_rem (result * b % 2 ^ 128) m
        else some result
      let b2 ← checked_rem (b * b % 2 ^ 128) m
      modPowLoopChecked f result2 b2 (e / 2) m

/-- `mod_pow` with the division-by-zero panic made explicit. -/
def mod_pow_checked (base exp modulus : Nat) : Option Nat :=
  (modPowLoopChecked exp 1 base exp modulus).map (fun r => r % 2 ^ 64)

/-- With a nonzero modulus the checked loop never panics and agrees
with the plain loop. -/
theorem modPowLoopChecked_eq (fuel : Nat) : ∀ result b e m : Nat, 0 < m →
    modPowLoopChecked fuel result b e m = some (modPowLoop fuel result b e m) := by
  induction fuel with
  | zero => intro result b e m hm; by_cases he : e = 0 <;>
      simp [modPowLoopChecked, modPowLoop, he]
  | succ f ih =>
    intro result b e m hm
    by_cases he : e = 0
    · simp [modPowLoopChecked, modPowLoop, he]
    · rw [modPowLoopChecked, modPowLoop]
      simp only [he, if_false]
      by_cases h1 : e % 2 = 1 <;>
        simp [h1, checked_rem, hm.ne', ih _ _ _ _ hm]

/-!
## Claims
-/

/-- Claim C1: for every `u64` base `a`, exponent `b`, and modulus `m`
with `m > 1`, `mod_pow a b m` equals the reference big-integer value
`a ^ b % m`; the `u128`-width intermediate multiplications never wrap. -/
theorem c1_mod_pow_correct (a b m : Nat) (ha : a < 2 ^ 64) (_hb : b < 2 ^ 64)
    (hm1 : 1 < m) (hm : m < 2 ^ 64) : mod_pow a b m = a ^ b % m :=
  mod_pow_eq a b m ha hm1 hm

/-- Witness for C1 at `a = 7`, `b = 3`, `m = 5`. -/
theorem c1_witness : (1 : Nat) < 5 ∧ mod_pow 7 3 5 = 7 ^ 3 % 5 :=
  ⟨by norm_num, c1_mod_pow_correct 7 3 5 (by norm_num) (by norm_num)
    (by norm_num) (by norm_num)⟩

/-- Claim C2: Diffie–Hellman symmetry for all private keys with the
fixed constants `P = 0xD87FA3E291B4C7F3` and `G = 2`, and the concrete
case `privA = 5`, `privB = 7` where both derivations equal
`mod_pow 2 35 P`. -/
theorem c2_dh_symmetry :
    P = 0xD87FA3E291B4C7F3 ∧ G = 2 ∧
    (∀ privA privB : Nat,
      mod_pow (mod_pow G privA P) privB P =
        mod_pow (mod_pow G privB P) privA P) ∧
    mod_pow (mod_pow G 5 P) 7 P = mod_pow 2 35 P ∧
    mod_pow (mod_pow G 7 P) 5 P = mod_pow 2 35 P := by
  have hP1 : 1 < P := by norm_num [P]
  have hP : P < 2 ^ 64 := by norm_num [P]
  have hG : G < 2 ^ 64 := by norm_num [G]
  refine ⟨rfl, rfl, fun a b => ?_, by decide, by decide⟩
  rw [mod_pow_eq G a P hG hP1 hP, mod_pow_eq G b P hG hP1 hP,
    mod_pow_eq _ b P (lt_trans (Nat.mod_lt _ (by omega)) hP) hP1 hP,
    mod_pow_eq _ a P (lt_trans (Nat.mod_lt _ (by omega)) hP) hP1 hP,
    ← Nat.pow_mod, ← Nat.pow_mod, ← pow_mul, ← pow_mul, Nat.mul_comm a b]

/-- Claim C3: round-trip — processing any byte sequence with a freshly
seeded cipher and re-processing the output with a second fresh cipher
of the same seed recovers the input; concretely for `[0x48, 0x69]`
with seed `0x00000001`. -/
theorem c3_round_trip :
    (∀ (S : Nat) (M : List Nat),
      ((LcgCipher.new S).process ((LcgCipher.new S).process M).1).1 = M) ∧
    ((LcgCipher.new 0x00000001).process
      ((LcgCipher.new 0x00000001).process [0x48, 0x69]).1).1 = [0x48, 0x69] :=
  ⟨fun _ M => process_process _ _ rfl M, by decide⟩

/-- Claim C4: `next_byte` performs the wrapping LCG update
`state = (state * 1103515245 + 12345) mod 2^32`, returns the top byte
`state >> 24` of the updated state, and increments the counter by one;
with seed `0x1234ABCD` the first three outputs are the hand-computed
LCG iterates. -/
theorem c4_next_byte :
    (∀ c : LcgCipher,
      c.next_byte.2.state = (c.state * 1103515245 + 12345) % 2 ^ 32 ∧
      c.next_byte.1 = c.next_byte.2.state / 2 ^ 24 ∧
      c.next_byte.2.count = c.count + 1) ∧
    keystreamList (LcgCipher.new 0x1234ABCD) 3 =
      [(0x1234ABCD * 1103515245 + 12345) % 2 ^ 32 / 2 ^ 24,
       ((0x1234ABCD * 1103515245 + 12345) % 2 ^ 32 * 1103515245 + 12345) %
         2 ^ 32 / 2 ^ 24,
       (((0x1234ABCD * 1103515245 + 12345) % 2 ^ 32 * 1103515245 + 12345) %
         2 ^ 32 * 1103515245 + 12345) % 2 ^ 32 / 2 ^ 24] := by
  constructor
  · intro c
    refine ⟨next_byte_state c, ?_, next_byte_count c⟩
    rw [next_byte_fst, next_byte_state]
  · decide

/-- Claim C5: `process` preserves length, XORs each input byte with the
corresponding keystream byte, advances the counter by the data length,
and leaves the cipher at the advanced keystream position so later calls
continue from there instead of position 0. -/
theorem c5_process_spec : ∀ (c : LcgCipher) (data : List Nat),
    (c.process data).1.length = data.length ∧
    (c.process data).1 =
      List.zipWith (fun x k => x ^^^ k) data (keystreamList c data.length) ∧
    (c.process data).2.count = c.count + data.length ∧
    (c.process data).2 = LcgCipher.step^[data.length] c ∧
    ∀ n : Nat, keystreamList c (data.length + n) =
      keystreamList c data.length ++ keystreamList (c.process data).2 n := by
  intro c data
  refine ⟨process_length c data, process_fst c data, process_count c data,
    process_snd c data, fun n => ?_⟩
  rw [process_snd, keystreamList_add]

/-- Claim C6: the handshake sends the public key `mod_pow G priv P` as
exactly 8 big-endian bytes, interprets the 8 received bytes as a
big-endian peer key, computes the shared secret
`mod_pow peer priv P`, and seeds both cipher instances with the low 32
bits of that secret. -/
theorem c6_handshake_wire : ∀ privateKey b0 b1 b2 b3 b4 b5 b6 b7 : Nat,
    (handshake privateKey [b0, b1, b2, b3, b4, b5, b6, b7]).sent.length = 8 ∧
    from_be_bytes (handshake privateKey [b0, b1, b2, b3, b4, b5, b6, b7]).sent =
      mod_pow G privateKey P ∧
    (handshake privateKey [b0, b1, b2, b3, b4, b5, b6, b7]).shared_secret =
      mod_pow (b0 * 2 ^ 56 + b1 * 2 ^ 48 + b2 * 2 ^ 40 + b3 * 2 ^ 32 +
        b4 * 2 ^ 24 + b5 * 2 ^ 16 + b6 * 2 ^ 8 + b7) privateKey P ∧
    (handshake privateKey [b0, b1, b2, b3, b4, b5, b6, b7]).outbound.state =
      (handshake privateKey [b0, b1, b2, b3, b4, b5, b6, b7]).shared_secret %
        2 ^ 32 ∧
    (handshake privateKey [b0, b1, b2, b3, b4, b5, b6, b7]).inbound =
      (handshake privateKey [b0, b1, b2, b3, b4, b5, b6, b7]).outbound := by
  intro privateKey b0 b1 b2 b3 b4 b5 b6 b7
  have hs : (handshake privateKey [b0, b1, b2, b3, b4, b5, b6, b7]).sent =
      to_be_bytes (mod_pow G privateKey P) := rfl
  have h2 : (handshake privateKey [b0, b1, b2, b3, b4, b5, b6, b7]).shared_secret =
      mod_pow (from_be_bytes [b0, b1, b2, b3, b4, b5, b6, b7]) privateKey P := rfl
  have hfb : from_be_bytes [b0, b1, b2, b3, b4, b5, b6, b7] =
      b0 * 2 ^ 56 + b1 * 2 ^ 48 + b2 * 2 ^ 40 + b3 * 2 ^ 32 +
        b4 * 2 ^ 24 + b5 * 2 ^ 16 + b6 * 2 ^ 8 + b7 := by
    simp only [from_be_bytes, List.foldl]
    ring
  refine ⟨?_, ?_, ?_, ?_, ?_⟩
  · rfl
  · rw [hs]
    exact from_be_to_be _ (mod_pow_lt _ _ _)
  · rw [h2, hfb]
  · rfl
  · rfl

/-- Claim C7 as stated is false: an I/O error during the key exchange
does not produce an explicit `HandshakeError` result — the `.unwrap()`
calls panic.  Concretely, a failed `write_all` panics. -/
theorem c7_counterexample :
    key_exchange 1 (Except.error ()) (Except.ok [0, 0, 0, 0, 0, 0, 0, 2]) =
      KexOutcome.panicked := rfl

/-- Claim C7 amended: any I/O error or short read/write during the
key-exchange send/receive steps aborts the connection by panicking
(`unwrap`), not by returning an explicit error result. -/
theorem c7_io_error_panics (privateKey : Nat) (write_result : Except Unit Unit)
    (read_result : Except Unit (List Nat))
    (h : write_result = Except.error () ∨ read_result = Except.error ()) :
    key_exchange privateKey write_result read_result = KexOutcome.panicked := by
  rcases h with h | h
  · subst h; rfl
  · subst h
    cases write_result with
    | error e => rfl
    | ok v => rfl

/-- Witness for the amended C7 at a failed `read_exact`. -/
theorem c7_witness :
    key_exchange 2 (Except.ok ()) (Except.error ()) = KexOutcome.panicked :=
  c7_io_error_panics 2 (Except.ok ()) (Except.error ()) (Or.inr rfl)

/-- Claim C8: the keystream counter never decreases: both `next_byte`
and `process` leave it at least as large as before, and neither resets
it. -/
theorem c8_counter_monotone : ∀ (c : LcgCipher) (data : List Nat),
    c.count ≤ c.next_byte.2.count ∧ c.count ≤ (c.process data).2.count := by
  intro c data
  constructor
  · rw [next_byte_count]; omega
  · rw [process_count]; omega

/-- Claim C9 as stated is false: a line consisting of one space is not
empty, yet the loop iteration transmits nothing and leaves the cipher
untouched, because the code trims the line before the emptiness test. -/
theorem c9_counterexample :
    ([32] : List Nat) ≠ [] ∧
      send_loop_body (LcgCipher.new 1) [32] = (none, LcgCipher.new 1) :=
  ⟨by decide, by decide⟩

/-- Claim C9 amended: each send-loop iteration whitespace-trims the
line first; if the trimmed line is empty (so in particular for an empty
line) nothing is sent and the outbound cipher is unchanged, and
otherwise the trimmed line's bytes — not the raw line's — are XORed
with the outbound keystream and the ciphertext is sent. -/
theorem c9_send_loop (cipher : LcgCipher) (line : List Nat) :
    (trim line = [] → send_loop_body cipher line = (none, cipher)) ∧
    (trim line ≠ [] → send_loop_body cipher line =
      (some (List.zipWith (fun x k => x ^^^ k) (trim line)
          (keystreamList cipher (trim line).length)),
        LcgCipher.step^[(trim line).length] cipher)) := by
  constructor
  · intro h
    simp [send_loop_body, h]
  · intro h
    simp [send_loop_body, List.isEmpty_iff, h, process_fst, process_snd]

/-- Witness for the amended C9: the line `"Hi "` is trimmed to `"Hi"`
and encrypted. -/
theorem c9_witness :
    send_loop_body (LcgCipher.new 1) [72, 105, 32] =
      (some (List.zipWith (fun x k => x ^^^ k) (trim [72, 105, 32])
          (keystreamList (LcgCipher.new 1) (trim [72, 105, 32]).length)),
        LcgCipher.step^[(trim [72, 105, 32]).length] (LcgCipher.new 1)) :=
  (c9_send_loop (LcgCipher.new 1) [72, 105, 32]).2 (by decide)

/-- Claim C10 as stated is false in one corner: with modulus 0 and
exponent 0 the loop body never runs, so no modulo-by-zero happens and
`mod_pow` returns 1 without failing. -/
theorem c10_counterexample : mod_pow_checked 5 0 0 = some 1 := rfl

/-- Claim C10 amended: `mod_pow` is total and panic-free for every
modulus ≥ 1; for modulus 0 it performs a modulo-by-zero (and would
panic) exactly when the exponent is nonzero, while for exponent 0 it
returns 1 unconditionally. -/
theorem c10_totality : ∀ a e m : Nat,
    (1 ≤ m → mod_pow_checked a e m = some (mod_pow a e m)) ∧
    (m = 0 → 0 < e → mod_pow_checked a e m = none) ∧
    (m = 0 → e = 0 → mod_pow_checked a e m = some 1) := by
  intro a e m
  refine ⟨fun hm => ?_, fun hm he => ?_, fun hm he => ?_⟩
  · rw [mod_pow_checked, modPowLoopChecked_eq e 1 a e m hm]
    rfl
  · subst hm
    obtain ⟨f, rfl⟩ : ∃ f, e = f + 1 := ⟨e - 1, by omega⟩
    rw [mod_pow_checked, modPowLoopChecked]
    by_cases h1 : (f + 1) % 2 = 1 <;> simp [h1, checked_rem]
  · subst hm; subst he; rfl

/-- Witness for the amended C10: a nonzero modulus never panics, a zero
modulus with nonzero exponent does. -/
theorem c10_witness :
    mod_pow_checked 3 4 5 = some (mod_pow 3 4 5) ∧ mod_pow_checked 3 4 0 = none :=
  ⟨(c10_totality 3 4 5).1 (by norm_num), (c10_totality 3 4 0).2.1 rfl (by norm_num)⟩
